import Mathlib

/-!
# Verification of the GSTIN OCR-correction core (src/app.py)

Shallow embedding of the functions `is_valid_gstin_format`, `try_fix_gstin`,
the table `AMBIGUOUS_MAPS`, and `post_process_invoice_data` from `src/app.py`.

Python strings are modelled as `List Char` (with `String` wrappers built on
`String.data`); Python's `str.upper()` is modelled per character by
`Char.toUpper` (ASCII case mapping), which agrees with Python on the ASCII
range the GSTIN grammar is defined over.  Python dicts with string values are
modelled as association lists with first-occurrence lookup and in-place
replacement on assignment.
-/

namespace TaxInvoice

/-- Character class `[0-9]` of the validation pattern. -/
def isDigit09 (c : Char) : Bool := '0' ≤ c && c ≤ '9'

/-- Character class `[A-Z]` of the validation pattern. -/
def isUpperAZ (c : Char) : Bool := 'A' ≤ c && c ≤ 'Z'

/-- Character class `[1-9A-Z]` of the validation pattern (13th position). -/
def is19AZ (c : Char) : Bool := ('1' ≤ c && c ≤ '9') || isUpperAZ c

/-- Character class `[0-9A-Z]` of the validation pattern (15th position). -/
def is09AZ (c : Char) : Bool := isDigit09 c || isUpperAZ c

/-- The regular expression
`^[0-9]{2}[A-Z]{5}[0-9]{4}[A-Z]{1}[1-9A-Z]{1}Z[0-9A-Z]{1}$` of
`is_valid_gstin_format` (src/app.py line 58), transliterated as a positional
match on a character list: it matches exactly the 15-character lists whose
positions fall in the written classes. -/
def gstinRegexMatch : List Char → Bool
  | [d1, d2, u1, u2, u3, u4, u5, e1, e2, e3, e4, u6, t, z, w] =>
    isDigit09 d1 && isDigit09 d2 &&
    isUpperAZ u1 && isUpperAZ u2 && isUpperAZ u3 && isUpperAZ u4 && isUpperAZ u5 &&
    isDigit09 e1 && isDigit09 e2 && isDigit09 e3 && isDigit09 e4 &&
    isUpperAZ u6 && is19AZ t && (z == 'Z') && is09AZ w
  | _ => false

/-- `is_valid_gstin_format` (src/app.py lines 53-59): length must be exactly
15 (checked on the original string), then the pattern is matched against the
uppercased string. -/
def is_valid_gstin_format (gstin : List Char) : Bool :=
  if gstin.length ≠ 15 then false
  else gstinRegexMatch (gstin.map Char.toUpper)

/-- String-level wrapper of `is_valid_gstin_format`. -/
def is_valid_gstin_formatS (s : String) : Bool := is_valid_gstin_format s.data

/-- `AMBIGUOUS_MAPS` (src/app.py lines 44-50): ordered one-directional
(wrong, replacement) pairs; the commented-out `("5","S")` entry is absent. -/
def AMBIGUOUS_MAPS : List (Char × Char) :=
  [('8', 'B'), ('0', 'O'), ('1', 'I'), ('l', '1')]

/-- Inner loop of `try_fix_gstin` (src/app.py lines 72-78) at one position
`i` holding character `ch`: walk the table in order; on a matching `wrong`
build the candidate with position `i` set to `alt`; return it if valid,
otherwise revert (functionally: keep using `chars`) and continue. -/
def tryEntriesAt (chars : List Char) (i : Nat) (ch : Char) :
    List (Char × Char) → Option (List Char)
  | [] => none
  | (wrong, alt) :: rest =>
    if ch = wrong then
      if is_valid_gstin_format (chars.set i alt) then some (chars.set i alt)
      else tryEntriesAt chars i ch rest
    else tryEntriesAt chars i ch rest

/-- Outer loop of `try_fix_gstin` (src/app.py line 71,
`for i, ch in enumerate(chars)`): `i` counts up while `pending` walks the
character list; the first position whose inner loop succeeds wins. -/
def scanFrom (table : List (Char × Char)) (chars : List Char) :
    Nat → List Char → Option (List Char)
  | _, [] => none
  | i, ch :: rest =>
    match tryEntriesAt chars i ch table with
    | some cand => some cand
    | none => scanFrom table chars (i + 1) rest

/-- `try_fix_gstin` (src/app.py lines 62-80), with the substitution table as
a parameter: return a valid input unchanged; otherwise scan the uppercased
working copy for the first single-character substitution from the table that
validates; if none does, return the original input. -/
def tryFixWith (table : List (Char × Char)) (gstin : List Char) : List Char :=
  if is_valid_gstin_format gstin then gstin
  else
    match scanFrom table (gstin.map Char.toUpper) 0 (gstin.map Char.toUpper) with
    | some cand => cand
    | none => gstin

/-- `try_fix_gstin` as in the source: the module-level `AMBIGUOUS_MAPS` is
the table. -/
def try_fix_gstin (gstin : List Char) : List Char := tryFixWith AMBIGUOUS_MAPS gstin

/-- String-level wrapper of `try_fix_gstin`. -/
def try_fix_gstinS (s : String) : String := String.mk (try_fix_gstin s.data)

/-! ## Exception-aware re-embedding (for the totality claim)

The only operation of `try_fix_gstin` that could conceivably fail at run
time is the indexed write `chars[i] = alt`.  The `E`-suffixed definitions
re-embed the corrector with every indexed write guarded, returning
`Except.error` on an out-of-range index exactly where Python would raise
`IndexError`; totality is the theorem that this embedding always returns
`Except.ok`. -/

/-- Guarded indexed write `chars[i] = alt`: errors when `i` is out of range
(the situation in which the Python statement would raise `IndexError`). -/
def setE (cs : List Char) (i : Nat) (c : Char) : Except String (List Char) :=
  if i < cs.length then Except.ok (cs.set i c) else Except.error "IndexError"

/-- `tryEntriesAt` with the indexed write guarded. -/
def tryEntriesAtE (chars : List Char) (i : Nat) (ch : Char) :
    List (Char × Char) → Except String (Option (List Char))
  | [] => Except.ok none
  | (wrong, alt) :: rest =>
    if ch = wrong then
      match setE chars i alt with
      | Except.error e => Except.error e
      | Except.ok cand =>
        if is_valid_gstin_format cand then Except.ok (some cand)
        else tryEntriesAtE chars i ch rest
    else tryEntriesAtE chars i ch rest

/-- `scanFrom` with the indexed write guarded. -/
def scanFromE (table : List (Char × Char)) (chars : List Char) :
    Nat → List Char → Except String (Option (List Char))
  | _, [] => Except.ok none
  | i, ch :: rest =>
    match tryEntriesAtE chars i ch table with
    | Except.error e => Except.error e
    | Except.ok (some cand) => Except.ok (some cand)
    | Except.ok none => scanFromE table chars (i + 1) rest

/-- `try_fix_gstin` with the indexed write guarded. -/
def try_fix_gstinE (gstin : List Char) : Except String (List Char) :=
  if is_valid_gstin_format gstin then Except.ok gstin
  else
    match scanFromE AMBIGUOUS_MAPS (gstin.map Char.toUpper) 0 (gstin.map Char.toUpper) with
    | Except.error e => Except.error e
    | Except.ok (some cand) => Except.ok cand
    | Except.ok none => Except.ok gstin

/-! ## The spec-side validity grammar (for the refinement claim C3)

`spec_is_valid` is written from the words of spec.md §3/§4.1, not from the
code: after uppercasing, the string must have length exactly 15, and, in
1-indexed spec positions, positions 1-2 are digits, 3-7 uppercase letters,
8-11 digits, 12 an uppercase letter, 13 in {1-9, A-Z}, 14 the literal `Z`,
and 15 in {0-9, A-Z}. -/

/-- Validity Grammar of spec.md §3, checked positionally (0-indexed access
`u.getD k` corresponds to spec position `k+1`) on the uppercased view. -/
def spec_is_valid (s : List Char) : Bool :=
  let u := s.map Char.toUpper
  decide (u.length = 15) &&
  isDigit09 (u.getD 0 ' ') && isDigit09 (u.getD 1 ' ') &&
  isUpperAZ (u.getD 2 ' ') && isUpperAZ (u.getD 3 ' ') && isUpperAZ (u.getD 4 ' ') &&
  isUpperAZ (u.getD 5 ' ') && isUpperAZ (u.getD 6 ' ') &&
  isDigit09 (u.getD 7 ' ') && isDigit09 (u.getD 8 ' ') && isDigit09 (u.getD 9 ' ') &&
  isDigit09 (u.getD 10 ' ') &&
  isUpperAZ (u.getD 11 ' ') && is19AZ (u.getD 12 ' ') &&
  (u.getD 13 ' ' == 'Z') && is09AZ (u.getD 14 ' ')

/-! ## The scan-order fix list (for the first-match claim C5)

`allFixes` is written from the words of the claim: list, in scan order
(positions left to right, table entries in table order at each position),
every single-substitution candidate that the table can produce and that
validates.  First-match greediness is the theorem that the corrector
returns the head of this list. -/

/-- All valid candidates obtainable at position `i` (holding `ch`), in
table order. -/
def fixesAt (chars : List Char) (i : Nat) (ch : Char) :
    List (Char × Char) → List (List Char)
  | [] => []
  | (wrong, alt) :: rest =>
    if ch = wrong ∧ is_valid_gstin_format (chars.set i alt) then
      chars.set i alt :: fixesAt chars i ch rest
    else fixesAt chars i ch rest

/-- All valid single-substitution candidates from position `i` on, scan
order: positions left to right, table entries in order at each position. -/
def fixesFrom (table : List (Char × Char)) (chars : List Char) :
    Nat → List Char → List (List Char)
  | _, [] => []
  | i, ch :: rest => fixesAt chars i ch table ++ fixesFrom table chars (i + 1) rest

/-- All valid single-substitution candidates of the working copy `chars`,
in the scan order of `try_fix_gstin`. -/
def allFixes (table : List (Char × Char)) (chars : List Char) : List (List Char) :=
  fixesFrom table chars 0 chars

/-- Number of character positions at which two equal-length lists differ
(positions beyond the shorter list are not counted). -/
def diffCount (a b : List Char) : Nat :=
  (List.zip a b).countP (fun p => p.1 != p.2)

/-! ## The dict model (for the post-processing claim C9)

Python dicts with string keys and string values, modelled as association
lists: lookup returns the first binding, assignment replaces the first
binding of the key (appending when absent — which `post_process_invoice_data`
never does, since it assigns only after a successful truthy lookup). -/

/-- `d.get(k)`: first binding of `k`, if any. -/
def dictGet (m : List (String × String)) (k : String) : Option String :=
  match m with
  | [] => none
  | (k2, v) :: rest => if k2 = k then some v else dictGet rest k

/-- `d[k] = v`: replace the first binding of `k`, appending when absent. -/
def dictSet (m : List (String × String)) (k : String) (v : String) :
    List (String × String) :=
  match m with
  | [] => [(k, v)]
  | (k2, v2) :: rest => if k2 = k then (k, v) :: rest else (k2, v2) :: dictSet rest k v

/-- One `if processed.get(key): processed[key] = try_fix_gstin(processed[key])`
block of `post_process_invoice_data` (src/app.py lines 89-93): when the
value of `key` is truthy (present and non-empty), replace it by
`try_fix_gstin` of that value; otherwise leave the mapping alone. -/
def fixGSTKey (key : String) (m : List (String × String)) :
    List (String × String) :=
  match dictGet m key with
  | some v => if v ≠ "" then dictSet m key (try_fix_gstinS v) else m
  | none => m

/-- `post_process_invoice_data` (src/app.py lines 84-95): copy the mapping,
then run the correction block first on `"StockiestGST"`, then on
`"InstituteGST"`. -/
def post_process_invoice_data (data : List (String × String)) :
    List (String × String) :=
  fixGSTKey "InstituteGST" (fixGSTKey "StockiestGST" data)

end TaxInvoice

namespace TaxInvoice

/-! ## Helper lemmas -/

/-- A candidate returned by the inner loop passed the validity check. -/
theorem valid_of_tryEntriesAt {chars : List Char} {i : Nat} {ch : Char}
    {t : List (Char × Char)} {cand : List Char}
    (h : tryEntriesAt chars i ch t = some cand) :
    is_valid_gstin_format cand = true := by
  induction t with
  | nil => simp [tryEntriesAt] at h
  | cons p rest ih =>
    obtain ⟨wrong, alt⟩ := p
    simp only [tryEntriesAt] at h
    by_cases hw : ch = wrong
    · rw [if_pos hw] at h
      by_cases hv : is_valid_gstin_format (chars.set i alt) = true
      · rw [if_pos hv] at h
        injection h with h
        rw [← h]; exact hv
      · rw [if_neg hv] at h; exact ih h
    · rw [if_neg hw] at h; exact ih h

/-- A candidate returned by the outer loop passed the validity check. -/
theorem valid_of_scanFrom {t : List (Char × Char)} {chars : List Char}
    {cand : List Char} :
    ∀ {i : Nat} {pending : List Char},
      scanFrom t chars i pending = some cand →
      is_valid_gstin_format cand = true := by
  intro i pending
  induction pending generalizing i with
  | nil => intro h; simp [scanFrom] at h
  | cons ch rest ih =>
    intro h
    simp only [scanFrom] at h
    cases he : tryEntriesAt chars i ch t with
    | some c =>
      rw [he] at h
      simp only [Option.some.injEq] at h
      rw [← h]; exact valid_of_tryEntriesAt he
    | none =>
      rw [he] at h
      exact ih h

/-- The corrector either returns its input or a validated candidate. -/
theorem tryFixWith_eq_self_or_valid (t : List (Char × Char)) (s : List Char) :
    tryFixWith t s = s ∨ is_valid_gstin_format (tryFixWith t s) = true := by
  unfold tryFixWith
  by_cases hv : is_valid_gstin_format s = true
  · left; rw [if_pos hv]
  · rw [if_neg hv]
    cases hs : scanFrom t (s.map Char.toUpper) 0 (s.map Char.toUpper) with
    | some cand => right; exact valid_of_scanFrom hs
    | none => left; rfl

/-- The code validator agrees with the spec-side Validity Grammar. -/
theorem valid_eq_spec (s : List Char) : is_valid_gstin_format s = spec_is_valid s := by
  by_cases hl : s.length = 15
  · match s, hl with
    | [a0, a1, a2, a3, a4, a5, a6, a7, a8, a9, a10, a11, a12, a13, a14], _ =>
      simp [is_valid_gstin_format, gstinRegexMatch, spec_is_valid]
  · simp [is_valid_gstin_format, spec_is_valid, hl]

/-- The inner loop returns the first valid candidate in table order. -/
theorem tryEntriesAt_eq_head (chars : List Char) (i : Nat) (ch : Char)
    (t : List (Char × Char)) :
    tryEntriesAt chars i ch t = (fixesAt chars i ch t).head? := by
  induction t with
  | nil => rfl
  | cons p rest ih =>
    obtain ⟨wrong, alt⟩ := p
    simp only [tryEntriesAt, fixesAt]
    by_cases hw : ch = wrong
    · by_cases hv : is_valid_gstin_format (chars.set i alt) = true
      · rw [if_pos hw, if_pos hv, if_pos ⟨hw, hv⟩]; rfl
      · rw [if_pos hw, if_neg hv, if_neg (fun hc => hv hc.2)]; exact ih
    · rw [if_neg hw, if_neg (fun hc => hw hc.1)]; exact ih

/-- The scan returns the head of the scan-order fix list. -/
theorem scanFrom_eq_head (t : List (Char × Char)) (chars : List Char) :
    ∀ (i : Nat) (pending : List Char),
      scanFrom t chars i pending = (fixesFrom t chars i pending).head? := by
  intro i pending
  induction pending generalizing i with
  | nil => rfl
  | cons ch rest ih =>
    simp only [scanFrom, fixesFrom, tryEntriesAt_eq_head]
    cases hfa : fixesAt chars i ch t with
    | nil => simp [ih]
    | cons c cs => simp

/-- Shape of an inner-loop success: some table pair matched `ch` and the
candidate is the working copy with position `i` overwritten by the pair's
replacement character. -/
theorem tryEntriesAt_shape {chars : List Char} {i : Nat} {ch : Char}
    {t : List (Char × Char)} {cand : List Char}
    (h : tryEntriesAt chars i ch t = some cand) :
    ∃ p, p ∈ t ∧ p.1 = ch ∧ cand = chars.set i p.2 := by
  induction t with
  | nil => simp [tryEntriesAt] at h
  | cons p rest ih =>
    obtain ⟨wrong, alt⟩ := p
    simp only [tryEntriesAt] at h
    by_cases hw : ch = wrong
    · rw [if_pos hw] at h
      by_cases hv : is_valid_gstin_format (chars.set i alt) = true
      · rw [if_pos hv] at h
        injection h with h
        exact ⟨(wrong, alt), List.mem_cons_self _ _, hw.symm, h.symm⟩
      · rw [if_neg hv] at h
        obtain ⟨q, hq, h1, h2⟩ := ih h
        exact ⟨q, List.mem_cons_of_mem _ hq, h1, h2⟩
    · rw [if_neg hw] at h
      obtain ⟨q, hq, h1, h2⟩ := ih h
      exact ⟨q, List.mem_cons_of_mem _ hq, h1, h2⟩

/-- Shape of a scan success: the candidate is the working copy with one
in-range position, holding a pair's wrong character, overwritten by that
pair's replacement character. -/
theorem scanFrom_shape {t : List (Char × Char)} {chars : List Char}
    {cand : List Char} :
    ∀ {i : Nat} {pending : List Char},
      chars.drop i = pending →
      scanFrom t chars i pending = some cand →
      ∃ j p, p ∈ t ∧ j < chars.length ∧ chars.getD j ' ' = p.1 ∧
        cand = chars.set j p.2 := by
  intro i pending
  induction pending generalizing i with
  | nil => intro _ h; simp [scanFrom] at h
  | cons ch rest ih =>
    intro hd h
    have hlen : i < chars.length := by
      have := congrArg List.length hd
      simp only [List.length_drop, List.length_cons] at this
      omega
    have hch : chars.getD i ' ' = ch := by
      have h0 : chars[i]? = some ch := by
        have := List.getElem?_drop chars i 0
        rw [hd] at this
        simpa using this.symm
      simp [List.getD, h0]
    simp only [scanFrom] at h
    cases he : tryEntriesAt chars i ch t with
    | some c =>
      rw [he] at h
      injection h with h
      obtain ⟨p, hp, h1, h2⟩ := tryEntriesAt_shape he
      exact ⟨i, p, hp, hlen, by rw [hch, h1], by rw [← h, h2]⟩
    | none =>
      rw [he] at h
      have hd' : chars.drop (i + 1) = rest := by
        have := List.drop_drop 1 i chars
        rw [hd] at this
        simpa using this.symm
      exact ih hd' h

/-- Equal lists differ at no position. -/
theorem diffCount_self (a : List Char) : diffCount a a = 0 := by
  induction a with
  | nil => rfl
  | cons x xs ih => simp [diffCount, List.countP_cons] at ih ⊢; exact ih

/-- Overwriting one in-range position with a different character changes
exactly one position. -/
theorem diffCount_set (a : List Char) (i : Nat) (c : Char)
    (hlen : i < a.length) (hne : a.getD i ' ' ≠ c) :
    diffCount a (a.set i c) = 1 := by
  induction a generalizing i with
  | nil => simp at hlen
  | cons x xs ih =>
    cases i with
    | zero =>
      simp only [List.getD_cons_zero] at hne
      have h0 := diffCount_self xs
      simp [diffCount, List.countP_cons, hne] at h0 ⊢
      exact h0
    | succ n =>
      simp only [List.getD_cons_succ] at hne
      simp only [List.length_cons, Nat.add_lt_add_iff_right] at hlen
      have := ih n hlen hne
      simp [diffCount, List.set, List.countP_cons] at this ⊢
      exact this

/-- Every table pair substitutes a genuinely different character. -/
theorem amb_fst_ne_snd : ∀ p ∈ AMBIGUOUS_MAPS, p.1 ≠ p.2 := by decide

/-- A valid input is returned unchanged by the corrector. -/
theorem tryFixWith_of_valid (t : List (Char × Char)) {s : List Char}
    (h : is_valid_gstin_format s = true) : tryFixWith t s = s := by
  unfold tryFixWith; rw [if_pos h]

/-- The corrector is idempotent at the list level. -/
theorem tryFixWith_idem (t : List (Char × Char)) (s : List Char) :
    tryFixWith t (tryFixWith t s) = tryFixWith t s := by
  rcases tryFixWith_eq_self_or_valid t s with h | h
  · rw [h]; exact h
  · exact tryFixWith_of_valid t h

/-- A changed output passed the validity check (list level). -/
theorem tryFix_ne_imp_valid {s : List Char} (h : try_fix_gstin s ≠ s) :
    is_valid_gstin_format (try_fix_gstin s) = true := by
  rcases tryFixWith_eq_self_or_valid AMBIGUOUS_MAPS s with h0 | h0
  · exact absurd h0 h
  · exact h0

/-- A changed output keeps the input's length and differs from the
uppercased input in exactly one position (list level). -/
theorem tryFix_shape {s : List Char} (h : try_fix_gstin s ≠ s) :
    (try_fix_gstin s).length = s.length ∧
      diffCount (s.map Char.toUpper) (try_fix_gstin s) = 1 := by
  unfold try_fix_gstin tryFixWith at h ⊢
  by_cases hv : is_valid_gstin_format s = true
  · rw [if_pos hv] at h; exact absurd rfl h
  · rw [if_neg hv] at h ⊢
    cases hs : scanFrom AMBIGUOUS_MAPS (s.map Char.toUpper) 0 (s.map Char.toUpper) with
    | none => rw [hs] at h; exact absurd rfl h
    | some cand =>
      change cand.length = s.length ∧ diffCount (s.map Char.toUpper) cand = 1
      obtain ⟨j, p, hp, hj, hgd, hcand⟩ := scanFrom_shape rfl hs
      subst hcand
      refine ⟨by rw [List.length_set, List.length_map], ?_⟩
      apply diffCount_set _ _ _ hj
      rw [hgd]; exact amb_fst_ne_snd p hp

/-- The guarded indexed write succeeds at every in-range index. -/
theorem setE_ok {cs : List Char} {i : Nat} (c : Char) (h : i < cs.length) :
    setE cs i c = Except.ok (cs.set i c) := by
  unfold setE; rw [if_pos h]

/-- With an in-range position, the guarded inner loop agrees with the pure
one and raises nothing. -/
theorem tryEntriesAtE_eq {chars : List Char} {i : Nat} (ch : Char)
    (h : i < chars.length) (t : List (Char × Char)) :
    tryEntriesAtE chars i ch t = Except.ok (tryEntriesAt chars i ch t) := by
  induction t with
  | nil => rfl
  | cons p rest ih =>
    obtain ⟨wrong, alt⟩ := p
    simp only [tryEntriesAtE, tryEntriesAt]
    by_cases hw : ch = wrong
    · rw [if_pos hw, if_pos hw, setE_ok alt h]
      change (if is_valid_gstin_format (chars.set i alt) = true then
          Except.ok (some (chars.set i alt))
        else tryEntriesAtE chars i ch rest) = _
      by_cases hv : is_valid_gstin_format (chars.set i alt) = true
      · rw [if_pos hv, if_pos hv]
      · rw [if_neg hv, if_neg hv]; exact ih
    · rw [if_neg hw, if_neg hw]; exact ih

/-- With in-range positions, the guarded scan agrees with the pure one and
raises nothing. -/
theorem scanFromE_eq (t : List (Char × Char)) (chars : List Char) :
    ∀ (i : Nat) (pending : List Char), i + pending.length ≤ chars.length →
      scanFromE t chars i pending = Except.ok (scanFrom t chars i pending) := by
  intro i pending
  induction pending generalizing i with
  | nil => intro _; rfl
  | cons ch rest ih =>
    intro hle
    simp only [List.length_cons] at hle
    have hi : i < chars.length := by omega
    simp only [scanFromE, scanFrom, tryEntriesAtE_eq ch hi t]
    cases tryEntriesAt chars i ch t with
    | some cand => rfl
    | none => exact ih (i + 1) (by omega)

/-- ASCII uppercasing never produces the lowercase letter `l`. -/
theorem toUpper_ne_l (c : Char) : Char.toUpper c ≠ 'l' := by
  intro h
  simp only [Char.toUpper] at h
  split at h
  · rename_i hc
    have h1 : 65 ≤ c.toNat - 32 := by omega
    have h2 : c.toNat - 32 ≤ 90 := by omega
    set m := c.toNat - 32 with hm
    interval_cases m <;> exact absurd h (by decide)
  · rename_i hc
    subst h
    exact hc (by decide)

/-- Appending the `('l', '1')` entry changes nothing at a position whose
character is not `'l'`. -/
theorem tryEntriesAt_last_l {chars : List Char} {i : Nat} {ch : Char}
    (hch : ch ≠ 'l') (t : List (Char × Char)) :
    tryEntriesAt chars i ch (t ++ [('l', '1')]) = tryEntriesAt chars i ch t := by
  induction t with
  | nil => simp only [List.nil_append, tryEntriesAt]; rw [if_neg hch]
  | cons p rest ih =>
    obtain ⟨wrong, alt⟩ := p
    simp only [List.cons_append, tryEntriesAt]
    by_cases hw : ch = wrong
    · rw [if_pos hw, if_pos hw]
      by_cases hv : is_valid_gstin_format (chars.set i alt) = true
      · rw [if_pos hv, if_pos hv]
      · rw [if_neg hv, if_neg hv]; exact ih
    · rw [if_neg hw, if_neg hw]; exact ih

/-- Appending the `('l', '1')` entry changes nothing on a working copy that
contains no `'l'`. -/
theorem scanFrom_last_l (chars : List Char) (t : List (Char × Char)) :
    ∀ (i : Nat) (pending : List Char), (∀ c ∈ pending, c ≠ 'l') →
      scanFrom (t ++ [('l', '1')]) chars i pending = scanFrom t chars i pending := by
  intro i pending
  induction pending generalizing i with
  | nil => intro _; rfl
  | cons ch rest ih =>
    intro hall
    have hch : ch ≠ 'l' := hall ch (List.mem_cons_self _ _)
    simp only [scanFrom, tryEntriesAt_last_l hch t]
    cases tryEntriesAt chars i ch t with
    | some cand => rfl
    | none => exact ih (i + 1) (fun c hc => hall c (List.mem_cons_of_mem _ hc))

/-- Lookup after assignment of the same key. -/
theorem dictGet_dictSet_self (m : List (String × String)) (k v : String) :
    dictGet (dictSet m k v) k = some v := by
  induction m with
  | nil => simp [dictGet, dictSet]
  | cons p rest ih =>
    obtain ⟨k2, v2⟩ := p
    simp only [dictSet]
    by_cases hk : k2 = k
    · rw [if_pos hk]; simp [dictGet]
    · rw [if_neg hk]; simp only [dictGet]; rw [if_neg hk]; exact ih

/-- Lookup after assignment of a different key. -/
theorem dictGet_dictSet_ne (m : List (String × String)) (k v k2 : String)
    (h : k2 ≠ k) : dictGet (dictSet m k v) k2 = dictGet m k2 := by
  induction m with
  | nil =>
    simp only [dictSet, dictGet]
    rw [if_neg (fun hc => h hc.symm)]
  | cons p rest ih =>
    obtain ⟨k3, v3⟩ := p
    have h1 : ¬(k = k2) := fun hc => h hc.symm
    simp only [dictSet]
    by_cases hk : k3 = k
    · have h2 : ¬(k3 = k2) := fun hc => h1 (hk.symm.trans hc)
      rw [if_pos hk]
      simp only [dictGet]
      rw [if_neg h1, if_neg h2]
    · rw [if_neg hk]
      simp only [dictGet]
      by_cases hk2 : k3 = k2
      · rw [if_pos hk2, if_pos hk2]
      · rw [if_neg hk2, if_neg hk2]; exact ih

/-- Lookup of the treated key after one correction block. -/
theorem dictGet_fixGSTKey_self (m : List (String × String)) (key : String) :
    dictGet (fixGSTKey key m) key =
      match dictGet m key with
      | none => none
      | some v => if v = "" then some v else some (try_fix_gstinS v) := by
  unfold fixGSTKey
  cases h : dictGet m key with
  | none => exact h
  | some v =>
    change dictGet (if v ≠ "" then dictSet m key (try_fix_gstinS v) else m) key =
      if v = "" then some v else some (try_fix_gstinS v)
    by_cases hv : v = ""
    · rw [if_neg (not_not_intro hv), if_pos hv]; exact h
    · rw [if_pos hv, dictGet_dictSet_self, if_neg hv]

/-- Lookup of any other key after one correction block. -/
theorem dictGet_fixGSTKey_ne (m : List (String × String)) (key k : String)
    (h : k ≠ key) : dictGet (fixGSTKey key m) k = dictGet m k := by
  unfold fixGSTKey
  cases dictGet m key with
  | none => rfl
  | some v =>
    change dictGet (if v ≠ "" then dictSet m key (try_fix_gstinS v) else m) k = dictGet m k
    by_cases hv : v = ""
    · rw [if_neg (not_not_intro hv)]
    · rw [if_pos hv, dictGet_dictSet_ne _ _ _ _ h]

/-! ## Claim theorems -/

/-- C1: if `try_fix_gstin` returns a string different from its input, the
returned string satisfies the Validity Grammar — the corrector never
returns a modified-but-still-invalid string. -/
theorem repaired_output_validates (s : String) (h : try_fix_gstinS s ≠ s) :
    is_valid_gstin_formatS (try_fix_gstinS s) = true := by
  have hl : try_fix_gstin s.data ≠ s.data := fun he => h (congrArg String.mk he)
  exact tryFix_ne_imp_valid hl

/-- Witness for C1 at the concrete repaired input `"07AAFC18134F1ZM"`. -/
theorem repaired_output_validates_witness :
    try_fix_gstinS "07AAFC18134F1ZM" ≠ "07AAFC18134F1ZM" ∧
      is_valid_gstin_formatS (try_fix_gstinS "07AAFC18134F1ZM") = true :=
  ⟨by decide, repaired_output_validates "07AAFC18134F1ZM" (by decide)⟩

/-- C2 (counterexample): on `"07a8FCI8134F1ZM"` the corrector changes the
input but the output differs from the input in two positions, not one —
the candidate is built on the uppercased working copy, so the lowercase
`a` is also changed. -/
theorem single_edit_counterexample :
    try_fix_gstinS "07a8FCI8134F1ZM" ≠ "07a8FCI8134F1ZM" ∧
      diffCount ("07a8FCI8134F1ZM" : String).data
        (try_fix_gstinS "07a8FCI8134F1ZM").data ≠ 1 :=
  ⟨by decide, by decide⟩

/-- C2 (amended): whenever the corrector changes its input, the output has
the input's length and differs from the *uppercased* input in exactly one
character position. -/
theorem single_edit_upto_case (s : String) (h : try_fix_gstinS s ≠ s) :
    (try_fix_gstinS s).length = s.length ∧
      diffCount (s.data.map Char.toUpper) (try_fix_gstinS s).data = 1 := by
  have hl : try_fix_gstin s.data ≠ s.data := fun he => h (congrArg String.mk he)
  exact tryFix_shape hl

/-- Witness for the amended C2 at the concrete input `"07AAFC18134F1ZM"`. -/
theorem single_edit_upto_case_witness :
    try_fix_gstinS "07AAFC18134F1ZM" ≠ "07AAFC18134F1ZM" ∧
      ((try_fix_gstinS "07AAFC18134F1ZM").length = ("07AAFC18134F1ZM" : String).length ∧
        diffCount (("07AAFC18134F1ZM" : String).data.map Char.toUpper)
          (try_fix_gstinS "07AAFC18134F1ZM").data = 1) :=
  ⟨by decide, single_edit_upto_case "07AAFC18134F1ZM" (by decide)⟩

/-- C3: the code validator agrees with the spec-side positional Validity
Grammar on every string; the empty string is invalid and a lowercase
string matching the grammar after case-folding is valid. -/
theorem validator_matches_spec :
    (∀ s : List Char, is_valid_gstin_format s = spec_is_valid s) ∧
      is_valid_gstin_formatS "" = false ∧
      is_valid_gstin_formatS "07aafci8134f1zm" = true :=
  ⟨valid_eq_spec, by decide, by decide⟩

/-- C4: the corrector is idempotent. -/
theorem correct_idempotent (s : String) :
    try_fix_gstinS (try_fix_gstinS s) = try_fix_gstinS s := by
  show String.mk (try_fix_gstin (try_fix_gstin s.data)) = String.mk (try_fix_gstin s.data)
  exact congrArg String.mk (tryFixWith_idem AMBIGUOUS_MAPS s.data)

/-- C5: first-match greediness — on an invalid input, the corrector
returns exactly the head of the list of all valid single-substitution
candidates enumerated in scan order (positions left to right, table
entries in table order). -/
theorem first_match_greedy (s : String) (c : List Char)
    (h1 : is_valid_gstin_formatS s = false)
    (h2 : (allFixes AMBIGUOUS_MAPS (s.data.map Char.toUpper)).head? = some c) :
    try_fix_gstinS s = String.mk c := by
  have hv0 : is_valid_gstin_format s.data = false := h1
  show String.mk (try_fix_gstin s.data) = String.mk c
  congr 1
  unfold try_fix_gstin tryFixWith
  rw [if_neg (by simp [hv0]), scanFrom_eq_head]
  unfold allFixes at h2
  rw [h2]

/-- Witness for C5 at the concrete input `"07AAFC18134F1ZM"`. -/
theorem first_match_greedy_witness :
    is_valid_gstin_formatS "07AAFC18134F1ZM" = false ∧
      (allFixes AMBIGUOUS_MAPS (("07AAFC18134F1ZM" : String).data.map Char.toUpper)).head? =
        some ("07AAFCI8134F1ZM" : String).data ∧
      try_fix_gstinS "07AAFC18134F1ZM" = String.mk ("07AAFCI8134F1ZM" : String).data :=
  ⟨by decide, by decide, first_match_greedy "07AAFC18134F1ZM" _ (by decide) (by decide)⟩

/-- C6: an already-valid input is returned exactly unchanged, original
casing included. -/
theorem valid_input_noop (s : String) (h : is_valid_gstin_formatS s = true) :
    try_fix_gstinS s = s := by
  show String.mk (try_fix_gstin s.data) = s
  rw [try_fix_gstin, tryFixWith_of_valid AMBIGUOUS_MAPS h]

/-- Witness for C6 at the concrete valid input `"07AAFCI8134F1ZM"`. -/
theorem valid_input_noop_witness :
    is_valid_gstin_formatS "07AAFCI8134F1ZM" = true ∧
      try_fix_gstinS "07AAFCI8134F1ZM" = "07AAFCI8134F1ZM" :=
  ⟨by decide, valid_input_noop "07AAFCI8134F1ZM" (by decide)⟩

/-- C7 (counterexample): on input `"07AAFCl8134F1ZM"` the corrector does
NOT return the claimed corrected candidate `"07AAFC18134F1ZM"`. -/
theorem scenario1_counterexample :
    try_fix_gstinS "07AAFCl8134F1ZM" ≠ "07AAFC18134F1ZM" := by decide

/-- C7 (amended): `"07AAFCl8134F1ZM"` already validates (validation is
case-insensitive and uppercases `l` to the letter `L`, legal in the
letters block), so the corrector returns the input unchanged. -/
theorem scenario1_actual_noop :
    try_fix_gstinS "07AAFCl8134F1ZM" = "07AAFCl8134F1ZM" ∧
      is_valid_gstin_formatS "07AAFCl8134F1ZM" = true :=
  ⟨by decide, by decide⟩

/-- C8: totality — the validator always returns a boolean, and the
exception-aware re-embedding of the corrector (every indexed write
guarded) always returns `Except.ok` with the pure result: no input can
raise. -/
theorem core_total_no_error :
    (∀ s : List Char, is_valid_gstin_format s = true ∨ is_valid_gstin_format s = false) ∧
      (∀ s : List Char, try_fix_gstinE s = Except.ok (try_fix_gstin s)) := by
  constructor
  · intro s
    cases is_valid_gstin_format s
    · right; rfl
    · left; rfl
  · intro s
    unfold try_fix_gstinE try_fix_gstin tryFixWith
    by_cases hv : is_valid_gstin_format s = true
    · rw [if_pos hv, if_pos hv]
    · rw [if_neg hv, if_neg hv,
        scanFromE_eq AMBIGUOUS_MAPS (s.map Char.toUpper) 0 (s.map Char.toUpper) (by omega)]
      cases scanFrom AMBIGUOUS_MAPS (s.map Char.toUpper) 0 (s.map Char.toUpper) with
      | some cand => rfl
      | none => rfl

/-- C9: the post-processing step replaces the two GSTIN keys by
`try_fix_gstin` of their value exactly when that value is present and
non-empty; empty or absent values, and all other keys, are unchanged. -/
theorem post_process_frame (data : List (String × String)) (k : String) :
    dictGet (post_process_invoice_data data) k =
      if k = "StockiestGST" ∨ k = "InstituteGST" then
        match dictGet data k with
        | none => none
        | some v => if v = "" then some v else some (try_fix_gstinS v)
      else dictGet data k := by
  by_cases hS : k = "StockiestGST"
  · subst hS
    rw [if_pos (Or.inl rfl)]
    unfold post_process_invoice_data
    rw [dictGet_fixGSTKey_ne _ _ _ (by decide)]
    exact dictGet_fixGSTKey_self data "StockiestGST"
  · by_cases hI : k = "InstituteGST"
    · subst hI
      rw [if_pos (Or.inr rfl)]
      unfold post_process_invoice_data
      rw [dictGet_fixGSTKey_self, dictGet_fixGSTKey_ne _ _ _ (by decide)]
    · rw [if_neg (by tauto)]
      unfold post_process_invoice_data
      rw [dictGet_fixGSTKey_ne _ _ _ hI, dictGet_fixGSTKey_ne _ _ _ hS]

/-- C10: the `('l', '1')` table entry is unreachable — the working copy is
uppercased before any comparison and ASCII uppercasing never yields `'l'`,
so the corrector behaves identically with the entry removed. -/
theorem l_entry_unreachable :
    (∀ s : List Char, ((s.map Char.toUpper).all (fun c => c != 'l')) = true) ∧
      (∀ s : List Char, try_fix_gstin s = tryFixWith (AMBIGUOUS_MAPS.take 3) s) := by
  constructor
  · intro s
    rw [List.all_eq_true]
    intro c hc
    obtain ⟨a, _, rfl⟩ := List.mem_map.mp hc
    exact bne_iff_ne.mpr (toUpper_ne_l a)
  · intro s
    unfold try_fix_gstin tryFixWith
    by_cases hv : is_valid_gstin_format s = true
    · rw [if_pos hv, if_pos hv]
    · rw [if_neg hv, if_neg hv]
      have hall : ∀ c ∈ s.map Char.toUpper, c ≠ 'l' := by
        intro c hc
        obtain ⟨a, _, rfl⟩ := List.mem_map.mp hc
        exact toUpper_ne_l a
      have h1 := scanFrom_last_l (s.map Char.toUpper)
        (AMBIGUOUS_MAPS.take 3) 0 (s.map Char.toUpper) hall
      have h2 : (AMBIGUOUS_MAPS.take 3) ++ [('l', '1')] = AMBIGUOUS_MAPS := rfl
      rw [h2] at h1
      rw [h1]

end TaxInvoice
